import Mathlib

/-!
Shallow embedding of the TACS distributed block vector (`src/bpmat/BVec.c`).

Scalars (`TacsScalar`, real build) are modelled as `ℚ`; the value arrays
`x` (local/owned), `x_ext` (ghost) and `x_dep` (dependent) are modelled as
total functions `ℕ → ℚ` (the C arrays, with out-of-range behaviour left
unconstrained).  The read-only collaborators of a vector — the owner range
from the `TACSVarMap`, the `findIndex` method of the ghost index set, and
the dependent-node table — are passed explicitly.  MPI exchanges
(`endReverse`, `endForward`) are modelled by universally quantified
"exchange outcome" arrays, since their implementation lives outside this
translation unit.
-/

namespace TACSBVec

/-- The `TACSBVecOperation` enum from the source: `INSERT_VALUES` overwrites,
`ADD_VALUES` accumulates. -/
inductive TACSBVecOperation where
  | INSERT_VALUES : TACSBVecOperation
  | ADD_VALUES : TACSBVecOperation
deriving DecidableEq

open TACSBVecOperation

/-- The three mutable value arrays of a `TACSBVec`: `x` (owned block values),
`x_ext` (ghost values) and `x_dep` (dependent-node scratch). -/
structure VState where
  x : ℕ → ℚ
  x_ext : ℕ → ℚ
  x_dep : ℕ → ℚ

/-- The read-only configuration a `TACSBVec` sees: block size `bsize`, this
process rank, the `owner_range` array of the `TACSVarMap`, and the
`findIndex` method of the external (ghost) index set `ext_indices`. -/
structure BVecCfg where
  bsize : ℕ
  rank : ℕ
  owner_range : ℕ → ℤ
  findIndex : ℤ → ℕ

/-- Global index `g` lies in this rank's owned range
(`index[i] >= owner_range[rank] && index[i] < owner_range[rank+1]`). -/
def isOwned (c : BVecCfg) (g : ℤ) : Prop :=
  c.owner_range c.rank ≤ g ∧ g < c.owner_range (c.rank + 1)

instance (c : BVecCfg) (g : ℤ) : Decidable (isOwned c g) :=
  instDecidableAnd

/-- Base offset into `x` for an owned global index:
`bsize*(index[i] - owner_range[rank])`. -/
def ownedBase (c : BVecCfg) (g : ℤ) : ℕ :=
  c.bsize * (g - c.owner_range c.rank).toNat

/-- Base offset into `x_dep` for a dependent (negative) global index:
`-bsize*(index[i]+1)`. -/
def depBase (c : BVecCfg) (g : ℤ) : ℕ :=
  c.bsize * (-(g + 1)).toNat

/-- Base offset into `x_ext` for a ghost index:
`bsize*ext_indices->findIndex(index[i])`. -/
def extBase (c : BVecCfg) (g : ℤ) : ℕ :=
  c.bsize * c.findIndex g

/-- One iteration of the loop in `TACSBVec::setValues` (lines 739–797):
classify `index[i]` as owned / dependent / ghost and deposit the block
`vals[off .. off+bsize)` there.  Note that in the ghost branch the source
performs `y[0] += vals[0]` under `INSERT_VALUES` as well as `ADD_VALUES`. -/
def setValuesOne (c : BVecCfg) (g : ℤ) (vals : ℕ → ℚ) (off : ℕ)
    (op : TACSBVecOperation) (s : VState) : VState :=
  if isOwned c g then
    VState.mk
      (fun j => if ownedBase c g ≤ j ∧ j < ownedBase c g + c.bsize then
          (match op with
           | INSERT_VALUES => vals (off + (j - ownedBase c g))
           | ADD_VALUES => s.x j + vals (off + (j - ownedBase c g)))
        else s.x j)
      s.x_ext s.x_dep
  else if g < 0 then
    VState.mk s.x s.x_ext
      (fun j => if depBase c g ≤ j ∧ j < depBase c g + c.bsize then
          (match op with
           | INSERT_VALUES => vals (off + (j - depBase c g))
           | ADD_VALUES => s.x_dep j + vals (off + (j - depBase c g)))
        else s.x_dep j)
  else
    VState.mk s.x
      (fun j => if extBase c g ≤ j ∧ j < extBase c g + c.bsize then
          (match op with
           | INSERT_VALUES => s.x_ext j + vals (off + (j - extBase c g))
           | ADD_VALUES => s.x_ext j + vals (off + (j - extBase c g)))
        else s.x_ext j)
      s.x_dep

/-- `TACSBVec::setValues(n, index, vals, op)`: process the `n` indices in
order; the `vals` pointer advances by `bsize` after each block. -/
def setValues (c : BVecCfg) (index : List ℤ) (vals : ℕ → ℚ) (off : ℕ)
    (op : TACSBVecOperation) (s : VState) : VState :=
  match index with
  | [] => s
  | g :: rest => setValues c rest vals (off + c.bsize) op (setValuesOne c g vals off op s)

/-- The block read by one iteration of `TACSBVec::getValues` (lines 953–987):
owned indices read from `x`, negative indices from `x_dep`, ghosts from
`x_ext`. -/
def getValuesOne (c : BVecCfg) (g : ℤ) (s : VState) (k : ℕ) : ℚ :=
  if isOwned c g then s.x (ownedBase c g + k)
  else if g < 0 then s.x_dep (depBase c g + k)
  else s.x_ext (extBase c g + k)

/-- `TACSBVec::getValues(n, index, vals)`: concatenation of the blocks read
for each index, in order. -/
def getValues (c : BVecCfg) (index : List ℤ) (s : VState) : List ℚ :=
  match index with
  | [] => []
  | g :: rest => (List.range c.bsize).map (getValuesOne c g s) ++ getValues c rest s

/-- Helper: the owned branch of `setValuesOne`, characterised. -/
theorem setValuesOne_owned (c : BVecCfg) (g : ℤ) (vals : ℕ → ℚ) (off : ℕ)
    (op : TACSBVecOperation) (s : VState) (hg : isOwned c g) :
    (∀ k, k < c.bsize →
      (setValuesOne c g vals off op s).x (ownedBase c g + k) =
        (match op with
         | INSERT_VALUES => vals (off + k)
         | ADD_VALUES => s.x (ownedBase c g + k) + vals (off + k))) ∧
    (∀ j, j < ownedBase c g ∨ ownedBase c g + c.bsize ≤ j →
      (setValuesOne c g vals off op s).x j = s.x j) ∧
    (setValuesOne c g vals off op s).x_ext = s.x_ext ∧
    (setValuesOne c g vals off op s).x_dep = s.x_dep := by
  unfold setValuesOne
  rw [if_pos hg]
  refine ⟨?_, ?_, rfl, rfl⟩
  · intro k hk
    show (if _ ∧ _ then _ else _) = _
    rw [if_pos (by omega : ownedBase c g ≤ ownedBase c g + k ∧
      ownedBase c g + k < ownedBase c g + c.bsize)]
    rw [show ownedBase c g + k - ownedBase c g = k from by omega]
  · intro j hj
    show (if _ ∧ _ then _ else _) = _
    rw [if_neg (by omega)]

/-- Helper: the dependent branch of `setValuesOne`, characterised. -/
theorem setValuesOne_dep (c : BVecCfg) (g : ℤ) (vals : ℕ → ℚ) (off : ℕ)
    (op : TACSBVecOperation) (s : VState) (hg : ¬ isOwned c g) (hneg : g < 0) :
    (∀ k, k < c.bsize →
      (setValuesOne c g vals off op s).x_dep (depBase c g + k) =
        (match op with
         | INSERT_VALUES => vals (off + k)
         | ADD_VALUES => s.x_dep (depBase c g + k) + vals (off + k))) ∧
    (∀ j, j < depBase c g ∨ depBase c g + c.bsize ≤ j →
      (setValuesOne c g vals off op s).x_dep j = s.x_dep j) ∧
    (setValuesOne c g vals off op s).x = s.x ∧
    (setValuesOne c g vals off op s).x_ext = s.x_ext := by
  unfold setValuesOne
  rw [if_neg hg, if_pos hneg]
  refine ⟨?_, ?_, rfl, rfl⟩
  · intro k hk
    show (if _ ∧ _ then _ else _) = _
    rw [if_pos (by omega : depBase c g ≤ depBase c g + k ∧
      depBase c g + k < depBase c g + c.bsize)]
    rw [show depBase c g + k - depBase c g = k from by omega]
  · intro j hj
    show (if _ ∧ _ then _ else _) = _
    rw [if_neg (by omega)]

/-- Helper: the ghost branch of `setValuesOne`, characterised — the source
adds the incoming block into `x_ext` under both operations. -/
theorem setValuesOne_ext (c : BVecCfg) (g : ℤ) (vals : ℕ → ℚ) (off : ℕ)
    (op : TACSBVecOperation) (s : VState) (hg : ¬ isOwned c g) (hneg : ¬ g < 0) :
    (∀ k, k < c.bsize →
      (setValuesOne c g vals off op s).x_ext (extBase c g + k) =
        s.x_ext (extBase c g + k) + vals (off + k)) ∧
    (∀ j, j < extBase c g ∨ extBase c g + c.bsize ≤ j →
      (setValuesOne c g vals off op s).x_ext j = s.x_ext j) ∧
    (setValuesOne c g vals off op s).x = s.x ∧
    (setValuesOne c g vals off op s).x_dep = s.x_dep := by
  unfold setValuesOne
  rw [if_neg hg, if_neg hneg]
  refine ⟨?_, ?_, rfl, rfl⟩
  · intro k hk
    show (if _ ∧ _ then _ else _) = _
    rw [if_pos (by omega : extBase c g ≤ extBase c g + k ∧
      extBase c g + k < extBase c g + c.bsize)]
    rw [show extBase c g + k - extBase c g = k from by omega]
    cases op <;> rfl
  · intro j hj
    show (if _ ∧ _ then _ else _) = _
    rw [if_neg (by omega)]

/-- C1 (counterexample): the claim that `INSERT_VALUES` overwrites the target
block in every classification branch is false.  On a configuration with
`bsize = 1` where rank 0 owns `[0,1)`, depositing the value 3 at the ghost
index 5 with `INSERT_VALUES` into a ghost slot holding 10 yields 13, not 3:
the ghost branch of `setValues` adds under `INSERT_VALUES`. -/
theorem setValues_insert_overwrites_counterexample :
    (setValues ⟨1, 0, (fun r => (r : ℤ)), fun _ => 0⟩ [5] (fun _ => 3) 0
      TACSBVecOperation.INSERT_VALUES ⟨fun _ => 0, fun _ => 10, fun _ => 0⟩).x_ext 0 = 13 ∧
    (13 : ℚ) ≠ 3 := by
  constructor
  · simp only [setValues]
    unfold setValuesOne
    rw [if_neg (by norm_num [isOwned]), if_neg (by norm_num)]
    norm_num [extBase]
  · norm_num

/-- C1 (amended): `setValues(n, index, vals, op)` processes the indices in
order; each `g = index[i]` is classified as owned
(`g ∈ [owner_range[rank], owner_range[rank+1])`, target `local[B·(g−lo)..]`),
dependent (`g < 0`, target `dep[B·(−g−1)..]`), or ghost
(target `ghost[B·findIndex(g)..]`).  In the owned and dependent branches
`INSERT_VALUES` overwrites the target block and `ADD_VALUES` adds the source
block elementwise; in the ghost branch the source block is added elementwise
under both operations.  Entries outside the target block, and the other two
arrays, are unchanged by each deposit. -/
theorem setValues_classification (c : BVecCfg) (g : ℤ) (vals : ℕ → ℚ) (off : ℕ)
    (op : TACSBVecOperation) (s : VState) :
    (∀ index : List ℤ,
      setValues c (g :: index) vals off op s =
        setValues c index vals (off + c.bsize) op (setValuesOne c g vals off op s)) ∧
    (isOwned c g →
      (∀ k, k < c.bsize →
        (setValuesOne c g vals off op s).x (ownedBase c g + k) =
          (match op with
           | INSERT_VALUES => vals (off + k)
           | ADD_VALUES => s.x (ownedBase c g + k) + vals (off + k))) ∧
      (∀ j, j < ownedBase c g ∨ ownedBase c g + c.bsize ≤ j →
        (setValuesOne c g vals off op s).x j = s.x j) ∧
      (setValuesOne c g vals off op s).x_ext = s.x_ext ∧
      (setValuesOne c g vals off op s).x_dep = s.x_dep) ∧
    (¬ isOwned c g → g < 0 →
      (∀ k, k < c.bsize →
        (setValuesOne c g vals off op s).x_dep (depBase c g + k) =
          (match op with
           | INSERT_VALUES => vals (off + k)
           | ADD_VALUES => s.x_dep (depBase c g + k) + vals (off + k))) ∧
      (∀ j, j < depBase c g ∨ depBase c g + c.bsize ≤ j →
        (setValuesOne c g vals off op s).x_dep j = s.x_dep j) ∧
      (setValuesOne c g vals off op s).x = s.x ∧
      (setValuesOne c g vals off op s).x_ext = s.x_ext) ∧
    (¬ isOwned c g → ¬ g < 0 →
      (∀ k, k < c.bsize →
        (setValuesOne c g vals off op s).x_ext (extBase c g + k) =
          s.x_ext (extBase c g + k) + vals (off + k)) ∧
      (∀ j, j < extBase c g ∨ extBase c g + c.bsize ≤ j →
        (setValuesOne c g vals off op s).x_ext j = s.x_ext j) ∧
      (setValuesOne c g vals off op s).x = s.x ∧
      (setValuesOne c g vals off op s).x_dep = s.x_dep) := by
  refine ⟨fun index => rfl, ?_, ?_, ?_⟩
  · exact fun hg => setValuesOne_owned c g vals off op s hg
  · exact fun hg hneg => setValuesOne_dep c g vals off op s hg hneg
  · exact fun hg hneg => setValuesOne_ext c g vals off op s hg hneg

/-- C1 (witness): the amended classification theorem applied concretely in
each of the three branches, with `bsize = 1`, rank 0 owning `[0, 2)`. -/
theorem setValues_classification_witness :
    (setValuesOne ⟨1, 0, (fun r => (2 * r : ℤ)), fun _ => 0⟩ 1 (fun _ => 3) 0
      TACSBVecOperation.INSERT_VALUES ⟨fun _ => 5, fun _ => 7, fun _ => 9⟩).x
      (ownedBase ⟨1, 0, (fun r => (2 * r : ℤ)), fun _ => 0⟩ 1 + 0) = 3 ∧
    (setValuesOne ⟨1, 0, (fun r => (2 * r : ℤ)), fun _ => 0⟩ (-1) (fun _ => 3) 0
      TACSBVecOperation.ADD_VALUES ⟨fun _ => 5, fun _ => 7, fun _ => 9⟩).x_dep
      (depBase ⟨1, 0, (fun r => (2 * r : ℤ)), fun _ => 0⟩ (-1) + 0) = 9 + 3 ∧
    (setValuesOne ⟨1, 0, (fun r => (2 * r : ℤ)), fun _ => 0⟩ 4 (fun _ => 3) 0
      TACSBVecOperation.INSERT_VALUES ⟨fun _ => 5, fun _ => 7, fun _ => 9⟩).x_ext
      (extBase ⟨1, 0, (fun r => (2 * r : ℤ)), fun _ => 0⟩ 4 + 0) = 7 + 3 := by
  refine ⟨?_, ?_, ?_⟩
  · exact ((setValues_classification _ 1 _ 0 _ _).2.1
      (by constructor <;> norm_num [isOwned])).1 0 (by norm_num)
  · exact ((setValues_classification _ (-1) _ 0 _ _).2.2.1
      (by norm_num [isOwned]) (by norm_num)).1 0 (by norm_num)
  · exact ((setValues_classification _ 4 _ 0 _ _).2.2.2
      (by norm_num [isOwned]) (by norm_num)).1 0 (by norm_num)

/-- Helper: two distinct blocks of size `B` are disjoint: position `B·a + k`
with `k < B` never lies in block `[B·b, B·b + B)` when `a ≠ b`. -/
theorem block_disjoint (B a b k : ℕ) (hk : k < B) (hab : a ≠ b) :
    B * a + k < B * b ∨ B * b + B ≤ B * a + k := by
  rcases Nat.lt_or_ge a b with h | h
  · left
    have e2 : B * (a + 1) ≤ B * b := Nat.mul_le_mul (le_refl B) (by omega)
    have e1 : B * (a + 1) = B * a + B := by ring
    omega
  · right
    have e2 : B * (b + 1) ≤ B * a := Nat.mul_le_mul (le_refl B) (by omega)
    have e1 : B * (b + 1) = B * b + B := by ring
    omega

/-- Helper: a position outside every owned target block of the index list is
left unchanged in `x` by `setValues` (dependent and ghost deposits never touch
`x`). -/
theorem setValues_x_frame (c : BVecCfg) (L : List ℤ) (vals : ℕ → ℚ) (off : ℕ)
    (op : TACSBVecOperation) (s : VState) (p : ℕ)
    (hp : ∀ h ∈ L, isOwned c h → p < ownedBase c h ∨ ownedBase c h + c.bsize ≤ p) :
    (setValues c L vals off op s).x p = s.x p := by
  induction L generalizing s off with
  | nil => rfl
  | cons g rest ih =>
    show (setValues c rest vals (off + c.bsize) op (setValuesOne c g vals off op s)).x p = _
    rw [ih (off + c.bsize) _ (fun h hh => hp h (List.mem_cons_of_mem g hh))]
    by_cases hg : isOwned c g
    · exact (setValuesOne_owned c g vals off op s hg).2.1 p (hp g (List.mem_cons_self g rest) hg)
    · by_cases hneg : g < 0
      · exact congrFun (setValuesOne_dep c g vals off op s hg hneg).2.2.1 p
      · exact congrFun (setValuesOne_ext c g vals off op s hg hneg).2.2.1 p

/-- Helper: a position outside every dependent target block of the index list
is left unchanged in `x_dep` by `setValues`. -/
theorem setValues_dep_frame (c : BVecCfg) (L : List ℤ) (vals : ℕ → ℚ) (off : ℕ)
    (op : TACSBVecOperation) (s : VState) (p : ℕ)
    (hp : ∀ h ∈ L, ¬ isOwned c h → h < 0 → p < depBase c h ∨ depBase c h + c.bsize ≤ p) :
    (setValues c L vals off op s).x_dep p = s.x_dep p := by
  induction L generalizing s off with
  | nil => rfl
  | cons g rest ih =>
    show (setValues c rest vals (off + c.bsize) op (setValuesOne c g vals off op s)).x_dep p = _
    rw [ih (off + c.bsize) _ (fun h hh => hp h (List.mem_cons_of_mem g hh))]
    by_cases hg : isOwned c g
    · exact congrFun (setValuesOne_owned c g vals off op s hg).2.2.2 p
    · by_cases hneg : g < 0
      · exact (setValuesOne_dep c g vals off op s hg hneg).2.1 p (hp g (List.mem_cons_self g rest) hg hneg)
      · exact congrFun (setValuesOne_ext c g vals off op s hg hneg).2.2.2 p

/-- Helper: `getValues` after `setValues … INSERT_VALUES` on pairwise distinct
owned-or-dependent indices reads back exactly the deposited values, for any
starting state and value offset. -/
theorem setValues_getValues_aux (c : BVecCfg) (L : List ℤ) (vals : ℕ → ℚ)
    (off : ℕ) (s : VState) (hnd : L.Nodup)
    (hcls : ∀ g ∈ L, isOwned c g ∨ g < 0) :
    getValues c L (setValues c L vals off TACSBVecOperation.INSERT_VALUES s) =
      (List.range (c.bsize * L.length)).map (fun m => vals (off + m)) := by
  induction L generalizing s off with
  | nil => simp [getValues, setValues]
  | cons g rest ih =>
    have hndr : rest.Nodup := hnd.of_cons
    have hgr : g ∉ rest := (List.nodup_cons.mp hnd).1
    have hclsr : ∀ h ∈ rest, isOwned c h ∨ h < 0 :=
      fun h hh => hcls h (List.mem_cons_of_mem g hh)
    have hstep : setValues c (g :: rest) vals off TACSBVecOperation.INSERT_VALUES s =
        setValues c rest vals (off + c.bsize)
          TACSBVecOperation.INSERT_VALUES
          (setValuesOne c g vals off TACSBVecOperation.INSERT_VALUES s) := rfl
    show (List.range c.bsize).map (getValuesOne c g _) ++ getValues c rest _ = _
    rw [hstep, ih (off + c.bsize) _ hndr hclsr]
    have hblock : ∀ k, k < c.bsize →
        getValuesOne c g
          (setValues c rest vals (off + c.bsize) TACSBVecOperation.INSERT_VALUES
            (setValuesOne c g vals off TACSBVecOperation.INSERT_VALUES s)) k =
          vals (off + k) := by
      intro k hk
      by_cases hg : isOwned c g
      · rw [getValuesOne, if_pos hg]
        rw [setValues_x_frame c rest vals (off + c.bsize) _ _ (ownedBase c g + k) ?_]
        · exact ((setValuesOne_owned c g vals off TACSBVecOperation.INSERT_VALUES s hg).1 k hk).trans rfl
        · intro h hh hho
          have hne : (g - c.owner_range c.rank).toNat ≠ (h - c.owner_range c.rank).toNat := by
            have h1 := hg.1
            have h2 := hho.1
            have : g ≠ h := fun e => hgr (e ▸ hh)
            omega
          exact block_disjoint c.bsize _ _ k hk hne
      · have hneg : g < 0 := (hcls g (List.mem_cons_self g rest)).resolve_left hg
        rw [getValuesOne, if_neg hg, if_pos hneg]
        rw [setValues_dep_frame c rest vals (off + c.bsize) _ _ (depBase c g + k) ?_]
        · exact ((setValuesOne_dep c g vals off TACSBVecOperation.INSERT_VALUES s hg hneg).1 k hk).trans rfl
        · intro h hh hho hhneg
          have hne : (-(g + 1)).toNat ≠ (-(h + 1)).toNat := by
            have : g ≠ h := fun e => hgr (e ▸ hh)
            omega
          exact block_disjoint c.bsize _ _ k hk hne
    rw [List.map_congr_left (fun k hk => hblock k (List.mem_range.mp hk))]
    rw [show c.bsize * (g :: rest).length = c.bsize + c.bsize * rest.length by
      simp [List.length_cons, Nat.mul_succ, Nat.add_comm]]
    rw [List.range_add, List.map_append, List.map_map]
    congr 1
    apply List.map_congr_left
    intro m _
    show vals (off + c.bsize + m) = vals (off + (c.bsize + m))
    rw [Nat.add_assoc]

/-- C10: for a list of pairwise distinct global indices, each owned by this
rank or dependent (negative with `−g−1 < D`), `setValues(n, index, vals,
INSERT_VALUES)` followed by `getValues(n, index, out)` returns exactly the
deposited values: `out` is elementwise equal to `vals`. -/
theorem setValues_getValues_roundtrip (c : BVecCfg) (index : List ℤ)
    (vals : ℕ → ℚ) (s : VState) (D : ℕ) (hnd : index.Nodup)
    (hcls : ∀ g ∈ index, isOwned c g ∨ (g < 0 ∧ (-(g + 1)).toNat < D)) :
    getValues c index (setValues c index vals 0 TACSBVecOperation.INSERT_VALUES s) =
      (List.range (c.bsize * index.length)).map vals := by
  rw [setValues_getValues_aux c index vals 0 s hnd
    (fun g hg => (hcls g hg).imp id And.left)]
  apply List.map_congr_left
  intro m _
  rw [Nat.zero_add]

/-- C10 (witness): with `bsize = 2`, rank 0 owning `[0, 2)` and one dependent
node, inserting at indices `[0, -1]` and reading back returns the deposited
four values. -/
theorem setValues_getValues_roundtrip_witness :
    getValues ⟨2, 0, (fun r => (2 * r : ℤ)), fun _ => 0⟩ [0, -1]
      (setValues ⟨2, 0, (fun r => (2 * r : ℤ)), fun _ => 0⟩ [0, -1]
        (fun m => (m : ℚ) + 1) 0 TACSBVecOperation.INSERT_VALUES
        ⟨fun _ => 0, fun _ => 0, fun _ => 0⟩) =
      (List.range (2 * 2)).map (fun m => (m : ℚ) + 1) := by
  exact setValues_getValues_roundtrip ⟨2, 0, (fun r => (2 * r : ℤ)), fun _ => 0⟩
    [0, -1] (fun m => (m : ℚ) + 1) ⟨fun _ => 0, fun _ => 0, fun _ => 0⟩ 1
    (by decide) (by decide)

/-- The boundary-condition map `TACSBcMap`: parallel arrays `local`/`global`
of length `nbcs`, the ragged offset array `var_ptr`, and the `vars`/`values`
arrays (modelled as total functions over the stored prefix). -/
structure BcMap where
  nbcs : ℕ
  local_nodes : ℕ → ℤ
  global : ℕ → ℤ
  var_ptr : ℕ → ℕ
  vars : ℕ → ℕ
  values : ℕ → ℚ

/-- One record of the loop in `TACSBVec::applyBCs` (lines 592–602): if the
record's global node is owned, zero `x[var + vars[k]]` for each `k` in the
record's span, where `var = bsize*(global[i] - owner_range[rank])`. -/
def applyBCsRec (c : BVecCfg) (bcs : BcMap) (xc : ℕ → ℚ) (i : ℕ) : ℕ → ℚ :=
  if isOwned c (bcs.global i) then
    (List.range' (bcs.var_ptr i) (bcs.var_ptr (i + 1) - bcs.var_ptr i)).foldl
      (fun a k => fun j =>
        if j = ownedBase c (bcs.global i) + bcs.vars k then 0 else a j) xc
  else xc

/-- `TACSBVec::applyBCs`: iterate the records in order over the `x` array. -/
def applyBCs (c : BVecCfg) (bcs : BcMap) (x : ℕ → ℚ) : ℕ → ℚ :=
  (List.range bcs.nbcs).foldl (applyBCsRec c bcs) x

/-- `applyBCs` as a method on the vector state: the source only ever writes
the `x` array. -/
def applyBCsV (c : BVecCfg) (bcs : BcMap) (s : VState) : VState :=
  VState.mk (applyBCs c bcs s.x) s.x_ext s.x_dep

/-- Helper: a fold whose step pointwise either zeroes a position or leaves it
alone zeroes exactly the positions some step zeroes. -/
theorem foldl_zero_pointwise {α : Type} (P : α → ℕ → Prop)
    [dp : ∀ i j, Decidable (P i j)] (f : (ℕ → ℚ) → α → (ℕ → ℚ))
    (hf : ∀ xc i j, f xc i j = if P i j then 0 else xc j)
    (L : List α) (xc : ℕ → ℚ) (j : ℕ) :
    (L.foldl f xc) j = if (∃ i ∈ L, P i j) then 0 else xc j := by
  induction L generalizing xc with
  | nil => simp
  | cons a L ih =>
    show (L.foldl f (f xc a)) j = _
    rw [ih]
    by_cases hmem : ∃ i ∈ L, P i j
    · rw [if_pos hmem, if_pos (by
        rcases hmem with ⟨i, hi, hp⟩
        exact ⟨i, List.mem_cons_of_mem a hi, hp⟩)]
    · rw [if_neg hmem, hf]
      by_cases hja : P a j
      · rw [if_pos hja, if_pos ⟨a, List.mem_cons_self a L, hja⟩]
      · rw [if_neg hja, if_neg (by
          rintro ⟨i, hi, hp⟩
          rcases List.mem_cons.mp hi with rfl | hi
          · exact hja hp
          · exact hmem ⟨i, hi, hp⟩)]

/-- Helper: one `applyBCs` record, characterised pointwise. -/
theorem applyBCsRec_char (c : BVecCfg) (bcs : BcMap) (xc : ℕ → ℚ) (i : ℕ) (j : ℕ) :
    applyBCsRec c bcs xc i j =
      if (isOwned c (bcs.global i) ∧
          ∃ k ∈ List.range' (bcs.var_ptr i) (bcs.var_ptr (i + 1) - bcs.var_ptr i),
            j = ownedBase c (bcs.global i) + bcs.vars k) then 0 else xc j := by
  unfold applyBCsRec
  by_cases hi : isOwned c (bcs.global i)
  · rw [if_pos hi]
    rw [foldl_zero_pointwise (fun k j => j = ownedBase c (bcs.global i) + bcs.vars k)
      _ (fun xc k j => rfl)]
    by_cases hmem : ∃ k ∈ List.range' (bcs.var_ptr i) (bcs.var_ptr (i + 1) - bcs.var_ptr i),
        j = ownedBase c (bcs.global i) + bcs.vars k
    · rw [if_pos hmem, if_pos ⟨hi, hmem⟩]
    · rw [if_neg hmem, if_neg (fun h => hmem h.2)]
  · rw [if_neg hi, if_neg (fun h => hi h.1)]

/-- C5: `applyBCs` zeroes `local[B·(global[i] − owner_range[rank]) + vars[k]]`
for every record `i` whose global node is owned by this rank and every `k` in
the record's span `[var_ptr[i], var_ptr[i+1])`; the stored `values[]` are
never written into the vector (every written entry becomes exactly 0); every
`local` entry not addressed by such a pair is unchanged, and `ghost` and
`dep` are untouched. -/
theorem applyBCs_char (c : BVecCfg) (bcs : BcMap) (s : VState)
    (hmono : ∀ i, bcs.var_ptr i ≤ bcs.var_ptr (i + 1)) :
    (∀ j,
      (∃ i, i < bcs.nbcs ∧ isOwned c (bcs.global i) ∧
        ∃ k, bcs.var_ptr i ≤ k ∧ k < bcs.var_ptr (i + 1) ∧
          j = ownedBase c (bcs.global i) + bcs.vars k) →
        (applyBCsV c bcs s).x j = 0) ∧
    (∀ j,
      (¬ ∃ i, i < bcs.nbcs ∧ isOwned c (bcs.global i) ∧
        ∃ k, bcs.var_ptr i ≤ k ∧ k < bcs.var_ptr (i + 1) ∧
          j = ownedBase c (bcs.global i) + bcs.vars k) →
        (applyBCsV c bcs s).x j = s.x j) ∧
    (applyBCsV c bcs s).x_ext = s.x_ext ∧
    (applyBCsV c bcs s).x_dep = s.x_dep := by
  have hmem : ∀ i k, (k ∈ List.range' (bcs.var_ptr i) (bcs.var_ptr (i + 1) - bcs.var_ptr i)) ↔
      (bcs.var_ptr i ≤ k ∧ k < bcs.var_ptr (i + 1)) := by
    intro i k
    rw [List.mem_range']
    have := hmono i
    constructor
    · rintro ⟨m, hm, rfl⟩
      omega
    · rintro ⟨h1, h2⟩
      exact ⟨k - bcs.var_ptr i, by omega, by omega⟩
  have hchar : ∀ j, (applyBCsV c bcs s).x j =
      if (∃ i ∈ List.range bcs.nbcs, isOwned c (bcs.global i) ∧
          ∃ k ∈ List.range' (bcs.var_ptr i) (bcs.var_ptr (i + 1) - bcs.var_ptr i),
            j = ownedBase c (bcs.global i) + bcs.vars k) then 0 else s.x j := by
    intro j
    exact foldl_zero_pointwise
      (fun i j => isOwned c (bcs.global i) ∧
        ∃ k ∈ List.range' (bcs.var_ptr i) (bcs.var_ptr (i + 1) - bcs.var_ptr i),
          j = ownedBase c (bcs.global i) + bcs.vars k)
      (applyBCsRec c bcs) (applyBCsRec_char c bcs) (List.range bcs.nbcs) s.x j
  have hiff : ∀ j,
      (∃ i ∈ List.range bcs.nbcs, isOwned c (bcs.global i) ∧
        ∃ k ∈ List.range' (bcs.var_ptr i) (bcs.var_ptr (i + 1) - bcs.var_ptr i),
          j = ownedBase c (bcs.global i) + bcs.vars k) ↔
      (∃ i, i < bcs.nbcs ∧ isOwned c (bcs.global i) ∧
        ∃ k, bcs.var_ptr i ≤ k ∧ k < bcs.var_ptr (i + 1) ∧
          j = ownedBase c (bcs.global i) + bcs.vars k) := by
    intro j
    constructor
    · rintro ⟨i, hi, ho, k, hk, he⟩
      exact ⟨i, List.mem_range.mp hi, ho, k, ((hmem i k).mp hk).1, ((hmem i k).mp hk).2, he⟩
    · rintro ⟨i, hi, ho, k, hk1, hk2, he⟩
      exact ⟨i, List.mem_range.mpr hi, ho, k, (hmem i k).mpr ⟨hk1, hk2⟩, he⟩
  refine ⟨?_, ?_, rfl, rfl⟩
  · intro j hj
    rw [hchar j, if_pos ((hiff j).mpr hj)]
  · intro j hj
    rw [hchar j, if_neg (fun h => hj ((hiff j).mp h))]

/-- C5 (witness): with `bsize = 2` and rank 0 owning `[0, 2)`, a single BC
record pinning dof 0 of global node 1 zeroes `local[2]` and leaves
`local[3]` at its prior value 5 (scenario S6 of the spec). -/
theorem applyBCs_char_witness :
    (applyBCsV ⟨2, 0, (fun r => (2 * r : ℤ)), fun _ => 0⟩
      ⟨1, fun _ => 1, fun _ => 1, id, fun _ => 0, fun _ => 7⟩
      ⟨fun _ => 5, fun _ => 5, fun _ => 5⟩).x 2 = 0 ∧
    (applyBCsV ⟨2, 0, (fun r => (2 * r : ℤ)), fun _ => 0⟩
      ⟨1, fun _ => 1, fun _ => 1, id, fun _ => 0, fun _ => 7⟩
      ⟨fun _ => 5, fun _ => 5, fun _ => 5⟩).x 3 = 5 := by
  constructor
  · exact (applyBCs_char ⟨2, 0, (fun r => (2 * r : ℤ)), fun _ => 0⟩
      ⟨1, fun _ => 1, fun _ => 1, id, fun _ => 0, fun _ => 7⟩
      ⟨fun _ => 5, fun _ => 5, fun _ => 5⟩ (fun i => by simp)).1 2
      ⟨0, by norm_num, ⟨by norm_num, by norm_num⟩, 0, by norm_num, by norm_num,
        by norm_num [ownedBase]⟩
  · exact (applyBCs_char ⟨2, 0, (fun r => (2 * r : ℤ)), fun _ => 0⟩
      ⟨1, fun _ => 1, fun _ => 1, id, fun _ => 0, fun _ => 7⟩
      ⟨fun _ => 5, fun _ => 5, fun _ => 5⟩ (fun i => by simp)).2.1 3
      (by
        rintro ⟨i, hi, ho, k, hk1, hk2, he⟩
        simp only [ownedBase, id] at hi hk1 hk2 he
        omega)

/-- The dependent-node table `TACSBVecDepNodes`: `ndep` entries, entry `i`
owning the span `[dep_ptr[i], dep_ptr[i+1])` of parent indices `dep_conn`
and weights `dep_weights`. -/
structure DepNodes where
  ndep : ℕ
  dep_ptr : ℕ → ℕ
  dep_conn : ℕ → ℤ
  dep_weights : ℕ → ℚ

/-- One parent contribution of the dependent collapse in
`TACSBVec::beginSetValues` (lines 822–845): add `dep_weights[jp]·z[k]` (with
`z = x_dep + bsize·i`) into `x` if the parent `dep_conn[jp]` is owned,
otherwise into `x_ext` at `bsize·findIndex(dep_conn[jp])`. -/
def depAddOne (c : BVecCfg) (d : DepNodes) (i jp : ℕ) (s : VState) : VState :=
  if isOwned c (d.dep_conn jp) then
    VState.mk
      (fun j =>
        if ownedBase c (d.dep_conn jp) ≤ j ∧ j < ownedBase c (d.dep_conn jp) + c.bsize then
          s.x j + d.dep_weights jp *
            s.x_dep (c.bsize * i + (j - ownedBase c (d.dep_conn jp)))
        else s.x j)
      s.x_ext s.x_dep
  else
    VState.mk s.x
      (fun j =>
        if extBase c (d.dep_conn jp) ≤ j ∧ j < extBase c (d.dep_conn jp) + c.bsize then
          s.x_ext j + d.dep_weights jp *
            s.x_dep (c.bsize * i + (j - extBase c (d.dep_conn jp)))
        else s.x_ext j)
      s.x_dep

/-- The inner loop over the parents of dependent node `i`. -/
def depCollapseI (c : BVecCfg) (d : DepNodes) (s : VState) (i : ℕ) : VState :=
  (List.range' (d.dep_ptr i) (d.dep_ptr (i + 1) - d.dep_ptr i)).foldl
    (fun s jp => depAddOne c d i jp s) s

/-- The dependent-collapse loop of `TACSBVec::beginSetValues` over all
dependent nodes. -/
def depCollapse (c : BVecCfg) (d : DepNodes) (s : VState) : VState :=
  (List.range d.ndep).foldl (depCollapseI c d) s

/-- `TACSBVec::beginSetValues(op)`: the dependent contributions are folded
into `x`/`x_ext` only when a dependent-node table exists and
`op == ADD_VALUES`; `beginReverse` only initiates the exchange and mutates no
local array. -/
def beginSetValues (c : BVecCfg) (dep : Option DepNodes)
    (op : TACSBVecOperation) (s : VState) : VState :=
  match dep, op with
  | some d, TACSBVecOperation.ADD_VALUES => depCollapse c d s
  | _, _ => s

/-- The contribution the dependent collapse adds at position `j` of `x`. -/
def depContribLocal (c : BVecCfg) (d : DepNodes) (dep0 : ℕ → ℚ) (j : ℕ) : ℚ :=
  ∑ i ∈ Finset.range d.ndep, ∑ jp ∈ Finset.Ico (d.dep_ptr i) (d.dep_ptr (i + 1)),
    (if isOwned c (d.dep_conn jp) ∧ ownedBase c (d.dep_conn jp) ≤ j ∧
        j < ownedBase c (d.dep_conn jp) + c.bsize then
      d.dep_weights jp * dep0 (c.bsize * i + (j - ownedBase c (d.dep_conn jp)))
    else 0)

/-- The contribution the dependent collapse adds at position `j` of `x_ext`. -/
def depContribExt (c : BVecCfg) (d : DepNodes) (dep0 : ℕ → ℚ) (j : ℕ) : ℚ :=
  ∑ i ∈ Finset.range d.ndep, ∑ jp ∈ Finset.Ico (d.dep_ptr i) (d.dep_ptr (i + 1)),
    (if ¬ isOwned c (d.dep_conn jp) ∧ extBase c (d.dep_conn jp) ≤ j ∧
        j < extBase c (d.dep_conn jp) + c.bsize then
      d.dep_weights jp * dep0 (c.bsize * i + (j - extBase c (d.dep_conn jp)))
    else 0)

/-- Helper: a list-range map-sum is the matching `Finset.range` sum. -/
theorem range_map_sum (f : ℕ → ℚ) (n : ℕ) :
    ((List.range n).map f).sum = ∑ i ∈ Finset.range n, f i := by
  induction n with
  | zero => simp
  | succ n ih =>
    rw [List.range_succ, List.map_append, List.sum_append, Finset.sum_range_succ, ih]
    simp

/-- Helper: a list-range' map-sum is the matching `Finset.Ico` sum. -/
theorem range'_map_sum (f : ℕ → ℚ) (a n : ℕ) :
    ((List.range' a n).map f).sum = ∑ jp ∈ Finset.Ico a (a + n), f jp := by
  rw [List.range'_eq_map_range, List.map_map, range_map_sum,
    Finset.sum_Ico_eq_sum_range]
  simp

/-- Helper: one parent contribution, characterised pointwise. -/
theorem depAddOne_char (c : BVecCfg) (d : DepNodes) (i jp : ℕ) (s : VState) :
    (∀ j, (depAddOne c d i jp s).x j = s.x j +
      (if isOwned c (d.dep_conn jp) ∧ ownedBase c (d.dep_conn jp) ≤ j ∧
          j < ownedBase c (d.dep_conn jp) + c.bsize then
        d.dep_weights jp * s.x_dep (c.bsize * i + (j - ownedBase c (d.dep_conn jp)))
      else 0)) ∧
    (∀ j, (depAddOne c d i jp s).x_ext j = s.x_ext j +
      (if ¬ isOwned c (d.dep_conn jp) ∧ extBase c (d.dep_conn jp) ≤ j ∧
          j < extBase c (d.dep_conn jp) + c.bsize then
        d.dep_weights jp * s.x_dep (c.bsize * i + (j - extBase c (d.dep_conn jp)))
      else 0)) ∧
    (depAddOne c d i jp s).x_dep = s.x_dep := by
  unfold depAddOne
  by_cases ho : isOwned c (d.dep_conn jp)
  · rw [if_pos ho]
    refine ⟨?_, ?_, rfl⟩
    · intro j
      show (if _ ∧ _ then _ else _) = _
      by_cases hin : ownedBase c (d.dep_conn jp) ≤ j ∧
          j < ownedBase c (d.dep_conn jp) + c.bsize
      · rw [if_pos hin, if_pos ⟨ho, hin.1, hin.2⟩]
      · rw [if_neg hin, if_neg (fun h => hin ⟨h.2.1, h.2.2⟩), add_zero]
    · intro j
      rw [if_neg (fun h => h.1 ho), add_zero]
  · rw [if_neg ho]
    refine ⟨?_, ?_, rfl⟩
    · intro j
      rw [if_neg (fun h => ho h.1), add_zero]
    · intro j
      show (if _ ∧ _ then _ else _) = _
      by_cases hin : extBase c (d.dep_conn jp) ≤ j ∧
          j < extBase c (d.dep_conn jp) + c.bsize
      · rw [if_pos hin, if_pos ⟨ho, hin.1, hin.2⟩]
      · rw [if_neg hin, if_neg (fun h => hin ⟨h.2.1, h.2.2⟩), add_zero]

/-- Helper: the inner parent fold of dependent node `i`, characterised as a
list sum of single contributions (relative to the unchanged `x_dep`). -/
theorem depFold_char (c : BVecCfg) (d : DepNodes) (i : ℕ) (L : List ℕ)
    (s : VState) :
    (∀ j, ((L.foldl (fun s jp => depAddOne c d i jp s) s).x j = s.x j +
      (L.map (fun jp =>
        if isOwned c (d.dep_conn jp) ∧ ownedBase c (d.dep_conn jp) ≤ j ∧
            j < ownedBase c (d.dep_conn jp) + c.bsize then
          d.dep_weights jp * s.x_dep (c.bsize * i + (j - ownedBase c (d.dep_conn jp)))
        else 0)).sum)) ∧
    (∀ j, ((L.foldl (fun s jp => depAddOne c d i jp s) s).x_ext j = s.x_ext j +
      (L.map (fun jp =>
        if ¬ isOwned c (d.dep_conn jp) ∧ extBase c (d.dep_conn jp) ≤ j ∧
            j < extBase c (d.dep_conn jp) + c.bsize then
          d.dep_weights jp * s.x_dep (c.bsize * i + (j - extBase c (d.dep_conn jp)))
        else 0)).sum)) ∧
    (L.foldl (fun s jp => depAddOne c d i jp s) s).x_dep = s.x_dep := by
  induction L generalizing s with
  | nil => exact ⟨fun j => by simp, fun j => by simp, rfl⟩
  | cons a L ih =>
    have ha := depAddOne_char c d i a s
    have hih := ih (depAddOne c d i a s)
    refine ⟨?_, ?_, ?_⟩
    · intro j
      show ((L.foldl _ (depAddOne c d i a s)).x j) = _
      rw [hih.1 j, ha.1 j, ha.2.2]
      simp [add_assoc]
    · intro j
      show ((L.foldl _ (depAddOne c d i a s)).x_ext j) = _
      rw [hih.2.1 j, ha.2.1 j, ha.2.2]
      simp [add_assoc]
    · show ((L.foldl _ (depAddOne c d i a s)).x_dep) = _
      rw [hih.2.2, ha.2.2]

/-- Helper: one dependent node's collapse, characterised via `Finset.Ico`. -/
theorem depCollapseI_char (c : BVecCfg) (d : DepNodes) (s : VState) (i : ℕ)
    (hmono : d.dep_ptr i ≤ d.dep_ptr (i + 1)) :
    (∀ j, (depCollapseI c d s i).x j = s.x j +
      ∑ jp ∈ Finset.Ico (d.dep_ptr i) (d.dep_ptr (i + 1)),
        (if isOwned c (d.dep_conn jp) ∧ ownedBase c (d.dep_conn jp) ≤ j ∧
            j < ownedBase c (d.dep_conn jp) + c.bsize then
          d.dep_weights jp * s.x_dep (c.bsize * i + (j - ownedBase c (d.dep_conn jp)))
        else 0)) ∧
    (∀ j, (depCollapseI c d s i).x_ext j = s.x_ext j +
      ∑ jp ∈ Finset.Ico (d.dep_ptr i) (d.dep_ptr (i + 1)),
        (if ¬ isOwned c (d.dep_conn jp) ∧ extBase c (d.dep_conn jp) ≤ j ∧
            j < extBase c (d.dep_conn jp) + c.bsize then
          d.dep_weights jp * s.x_dep (c.bsize * i + (j - extBase c (d.dep_conn jp)))
        else 0)) ∧
    (depCollapseI c d s i).x_dep = s.x_dep := by
  have h := depFold_char c d i
    (List.range' (d.dep_ptr i) (d.dep_ptr (i + 1) - d.dep_ptr i)) s
  have he : d.dep_ptr i + (d.dep_ptr (i + 1) - d.dep_ptr i) = d.dep_ptr (i + 1) := by
    omega
  refine ⟨fun j => ?_, fun j => ?_, h.2.2⟩
  · unfold depCollapseI
    rw [h.1 j, range'_map_sum, he]
  · unfold depCollapseI
    rw [h.2.1 j, range'_map_sum, he]

/-- Helper: the outer dependent-collapse fold, characterised as a list sum of
per-node contributions. -/
theorem depCollapse_fold_char (c : BVecCfg) (d : DepNodes)
    (hmono : ∀ i, d.dep_ptr i ≤ d.dep_ptr (i + 1)) (LI : List ℕ) (s : VState) :
    (∀ j, ((LI.foldl (depCollapseI c d) s).x j = s.x j +
      (LI.map (fun i =>
        ∑ jp ∈ Finset.Ico (d.dep_ptr i) (d.dep_ptr (i + 1)),
          (if isOwned c (d.dep_conn jp) ∧ ownedBase c (d.dep_conn jp) ≤ j ∧
              j < ownedBase c (d.dep_conn jp) + c.bsize then
            d.dep_weights jp * s.x_dep (c.bsize * i + (j - ownedBase c (d.dep_conn jp)))
          else 0))).sum)) ∧
    (∀ j, ((LI.foldl (depCollapseI c d) s).x_ext j = s.x_ext j +
      (LI.map (fun i =>
        ∑ jp ∈ Finset.Ico (d.dep_ptr i) (d.dep_ptr (i + 1)),
          (if ¬ isOwned c (d.dep_conn jp) ∧ extBase c (d.dep_conn jp) ≤ j ∧
              j < extBase c (d.dep_conn jp) + c.bsize then
            d.dep_weights jp * s.x_dep (c.bsize * i + (j - extBase c (d.dep_conn jp)))
          else 0))).sum)) ∧
    (LI.foldl (depCollapseI c d) s).x_dep = s.x_dep := by
  induction LI generalizing s with
  | nil => exact ⟨fun j => by simp, fun j => by simp, rfl⟩
  | cons a LI ih =>
    have ha := depCollapseI_char c d s a (hmono a)
    have hih := ih (depCollapseI c d s a)
    refine ⟨?_, ?_, ?_⟩
    · intro j
      show ((LI.foldl _ (depCollapseI c d s a)).x j) = _
      rw [hih.1 j, ha.1 j, ha.2.2]
      simp [add_assoc]
    · intro j
      show ((LI.foldl _ (depCollapseI c d s a)).x_ext j) = _
      rw [hih.2.1 j, ha.2.1 j, ha.2.2]
      simp [add_assoc]
    · show ((LI.foldl _ (depCollapseI c d s a)).x_dep) = _
      rw [hih.2.2, ha.2.2]

/-- C2: with a dependent-node table present, `beginSetValues(ADD_VALUES)`
adds, for each dependent `i`, each parent `jp ∈ [dep_ptr[i], dep_ptr[i+1])`
and each in-block offset, the value `dep_weights[jp] · dep[B·i + k]` into the
parent's block — into `x` when the parent is owned by this rank, otherwise
into `x_ext` at `B·findIndex(dep_conn[jp])` — while `x_dep` itself is
unchanged; and `beginSetValues(INSERT_VALUES)` folds no dependent entries at
all (the state is unchanged). -/
theorem beginSetValues_dep_collapse (c : BVecCfg) (d : DepNodes) (s : VState)
    (hmono : ∀ i, d.dep_ptr i ≤ d.dep_ptr (i + 1)) :
    (∀ j, (beginSetValues c (some d) TACSBVecOperation.ADD_VALUES s).x j =
      s.x j + depContribLocal c d s.x_dep j) ∧
    (∀ j, (beginSetValues c (some d) TACSBVecOperation.ADD_VALUES s).x_ext j =
      s.x_ext j + depContribExt c d s.x_dep j) ∧
    (beginSetValues c (some d) TACSBVecOperation.ADD_VALUES s).x_dep = s.x_dep ∧
    beginSetValues c (some d) TACSBVecOperation.INSERT_VALUES s = s := by
  have h := depCollapse_fold_char c d hmono (List.range d.ndep) s
  refine ⟨fun j => ?_, fun j => ?_, ?_, rfl⟩
  · show (depCollapse c d s).x j = _
    unfold depCollapse
    rw [h.1 j, range_map_sum]
    rfl
  · show (depCollapse c d s).x_ext j = _
    unfold depCollapse
    rw [h.2.1 j, range_map_sum]
    rfl
  · show (depCollapse c d s).x_dep = _
    exact h.2.2

/-- C2 (witness): `bsize = 1`, rank 0 owning `[0, 2)`, one dependent node
with parents 0 (owned) and 5 (ghost, `findIndex = 0`), weights `1/2`, and
dependent value 4: the collapse adds 2 to `x[0]` and 2 to `x_ext[0]`, and
`INSERT_VALUES` changes nothing. -/
theorem beginSetValues_dep_collapse_witness :
    (beginSetValues ⟨1, 0, (fun r => (2 * r : ℤ)), fun _ => 0⟩
      (some ⟨1, (fun i => 2 * i), (fun jp => if jp = 0 then 0 else 5), fun _ => 1 / 2⟩)
      TACSBVecOperation.ADD_VALUES ⟨fun _ => 1, fun _ => 0, fun _ => 4⟩).x 0 = 3 ∧
    (beginSetValues ⟨1, 0, (fun r => (2 * r : ℤ)), fun _ => 0⟩
      (some ⟨1, (fun i => 2 * i), (fun jp => if jp = 0 then 0 else 5), fun _ => 1 / 2⟩)
      TACSBVecOperation.ADD_VALUES ⟨fun _ => 1, fun _ => 0, fun _ => 4⟩).x_ext 0 = 2 ∧
    beginSetValues ⟨1, 0, (fun r => (2 * r : ℤ)), fun _ => 0⟩
      (some ⟨1, (fun i => 2 * i), (fun jp => if jp = 0 then 0 else 5), fun _ => 1 / 2⟩)
      TACSBVecOperation.INSERT_VALUES ⟨fun _ => 1, fun _ => 0, fun _ => 4⟩ =
      ⟨fun _ => 1, fun _ => 0, fun _ => 4⟩ := by
  have h := beginSetValues_dep_collapse ⟨1, 0, (fun r => (2 * r : ℤ)), fun _ => 0⟩
    ⟨1, (fun i => 2 * i), (fun jp => if jp = 0 then 0 else 5), fun _ => 1 / 2⟩
    ⟨fun _ => 1, fun _ => 0, fun _ => 4⟩ (fun i => by simp only; omega)
  refine ⟨?_, ?_, h.2.2.2⟩
  · rw [h.1 0]
    norm_num [depContribLocal, Finset.sum_Ico_eq_sum_range, Finset.sum_range_succ,
      isOwned, ownedBase, extBase]
  · rw [h.2.1 0]
    norm_num [depContribExt, Finset.sum_Ico_eq_sum_range, Finset.sum_range_succ,
      isOwned, ownedBase, extBase]

/-- The parent value read during dependent evaluation in
`TACSBVec::endDistributeValues` (lines 912–935): from `x` when
`dep_conn[jp]` is owned by this rank, otherwise from `x_ext` at
`bsize·findIndex(dep_conn[jp])`. -/
def parentVal (c : BVecCfg) (x x_ext : ℕ → ℚ) (g : ℤ) (k : ℕ) : ℚ :=
  if isOwned c g then x (ownedBase c g + k) else x_ext (extBase c g + k)

/-- Dependent node `i`'s evaluation in `TACSBVec::endDistributeValues`
(lines 905–936): zero the block `dep[B·i .. B·i+B)`, then for each parent
`jp` accumulate `dep_weights[jp] · parent_value[k]` into it. -/
def evalDepStep (c : BVecCfg) (d : DepNodes) (x x_ext : ℕ → ℚ)
    (dep : ℕ → ℚ) (i : ℕ) : ℕ → ℚ :=
  (List.range' (d.dep_ptr i) (d.dep_ptr (i + 1) - d.dep_ptr i)).foldl
    (fun z jp => fun m =>
      if c.bsize * i ≤ m ∧ m < c.bsize * i + c.bsize then
        z m + d.dep_weights jp * parentVal c x x_ext (d.dep_conn jp) (m - c.bsize * i)
      else z m)
    (fun m => if c.bsize * i ≤ m ∧ m < c.bsize * i + c.bsize then 0 else dep m)

/-- `TACSBVec::endDistributeValues`: complete the forward exchange (its
outcome on the ghost array is the abstract `newExt`; `x` is untouched by
`endForward`), then, when a dependent-node table exists, evaluate every
dependent node from the exchanged `x`/`x_ext` values. -/
def endDistributeValues (c : BVecCfg) (dep : Option DepNodes)
    (newExt : ℕ → ℚ) (s : VState) : VState :=
  match dep with
  | none => VState.mk s.x newExt s.x_dep
  | some d => VState.mk s.x newExt
      ((List.range d.ndep).foldl (evalDepStep c d s.x newExt) s.x_dep)

/-- Helper: the parent fold of `evalDepStep` leaves positions outside the
dependent block unchanged. -/
theorem evalDepStep_fold_outside (c : BVecCfg) (d : DepNodes) (x x_ext : ℕ → ℚ)
    (i : ℕ) (L : List ℕ) (z : ℕ → ℚ) (m : ℕ)
    (hm : ¬ (c.bsize * i ≤ m ∧ m < c.bsize * i + c.bsize)) :
    (L.foldl
      (fun z jp => fun m =>
        if c.bsize * i ≤ m ∧ m < c.bsize * i + c.bsize then
          z m + d.dep_weights jp * parentVal c x x_ext (d.dep_conn jp) (m - c.bsize * i)
        else z m) z) m = z m := by
  induction L generalizing z with
  | nil => rfl
  | cons a L ih =>
    rw [List.foldl_cons, ih]
    rw [if_neg hm]

/-- Helper: inside the dependent block the parent fold accumulates the list
sum of weighted parent values. -/
theorem evalDepStep_fold_in (c : BVecCfg) (d : DepNodes) (x x_ext : ℕ → ℚ)
    (i : ℕ) (L : List ℕ) (z : ℕ → ℚ) (m : ℕ)
    (hm : c.bsize * i ≤ m ∧ m < c.bsize * i + c.bsize) :
    (L.foldl
      (fun z jp => fun m =>
        if c.bsize * i ≤ m ∧ m < c.bsize * i + c.bsize then
          z m + d.dep_weights jp * parentVal c x x_ext (d.dep_conn jp) (m - c.bsize * i)
        else z m) z) m =
      z m + (L.map (fun jp =>
        d.dep_weights jp * parentVal c x x_ext (d.dep_conn jp) (m - c.bsize * i))).sum := by
  induction L generalizing z with
  | nil => simp
  | cons a L ih =>
    rw [List.foldl_cons, ih]
    rw [if_pos hm, List.map_cons, List.sum_cons]
    ring

/-- Helper: `evalDepStep` characterised: outside the block it is the old
`dep`, at in-block offset `k` it is the weighted parent sum. -/
theorem evalDepStep_char (c : BVecCfg) (d : DepNodes) (x x_ext : ℕ → ℚ)
    (dep : ℕ → ℚ) (i : ℕ)
    (hmono : d.dep_ptr i ≤ d.dep_ptr (i + 1)) :
    (∀ m, ¬ (c.bsize * i ≤ m ∧ m < c.bsize * i + c.bsize) →
      evalDepStep c d x x_ext dep i m = dep m) ∧
    (∀ k, k < c.bsize →
      evalDepStep c d x x_ext dep i (c.bsize * i + k) =
        ∑ jp ∈ Finset.Ico (d.dep_ptr i) (d.dep_ptr (i + 1)),
          d.dep_weights jp * parentVal c x x_ext (d.dep_conn jp) k) := by
  constructor
  · intro m hm
    unfold evalDepStep
    rw [evalDepStep_fold_outside c d x x_ext i _ _ m hm]
    exact if_neg hm
  · intro k hk
    unfold evalDepStep
    rw [evalDepStep_fold_in c d x x_ext i _ _ _ (by omega)]
    rw [if_pos (by omega : c.bsize * i ≤ c.bsize * i + k ∧
      c.bsize * i + k < c.bsize * i + c.bsize)]
    rw [show c.bsize * i + k - c.bsize * i = k from by omega]
    rw [range'_map_sum, show d.dep_ptr i + (d.dep_ptr (i + 1) - d.dep_ptr i) =
      d.dep_ptr (i + 1) from by omega]
    rw [zero_add]

/-- Helper: ranks of the outer dependent fold other than `i` do not touch
block `i`. -/
theorem evalDeps_fold_frame (c : BVecCfg) (d : DepNodes) (x x_ext : ℕ → ℚ)
    (hmono : ∀ i, d.dep_ptr i ≤ d.dep_ptr (i + 1))
    (LI : List ℕ) (dep : ℕ → ℚ) (i k : ℕ) (hk : k < c.bsize) (hni : i ∉ LI) :
    (LI.foldl (evalDepStep c d x x_ext) dep) (c.bsize * i + k) =
      dep (c.bsize * i + k) := by
  revert hni
  induction LI generalizing dep with
  | nil => intro hni; rfl
  | cons a LI ih =>
    intro hni
    rw [List.foldl_cons, ih _ (fun h => hni (List.mem_cons_of_mem a h))]
    exact (evalDepStep_char c d x x_ext dep a (hmono a)).1 _
      (by
        have hia : i ≠ a := fun e => hni (e ▸ List.mem_cons_self a LI)
        rcases block_disjoint c.bsize i a k hk hia with h | h
        · omega
        · omega)

/-- Helper: the outer dependent fold evaluates each listed block to the
weighted parent sum. -/
theorem evalDeps_fold_block (c : BVecCfg) (d : DepNodes) (x x_ext : ℕ → ℚ)
    (hmono : ∀ i, d.dep_ptr i ≤ d.dep_ptr (i + 1))
    (LI : List ℕ) (dep : ℕ → ℚ) (i k : ℕ) (hk : k < c.bsize)
    (hnd : LI.Nodup) (hi : i ∈ LI) :
    (LI.foldl (evalDepStep c d x x_ext) dep) (c.bsize * i + k) =
      ∑ jp ∈ Finset.Ico (d.dep_ptr i) (d.dep_ptr (i + 1)),
        d.dep_weights jp * parentVal c x x_ext (d.dep_conn jp) k := by
  revert hnd hi
  induction LI generalizing dep with
  | nil => intro hnd hi; cases hi
  | cons a LI ih =>
    intro hnd hi
    rw [List.foldl_cons]
    rcases List.mem_cons.mp hi with rfl | hi2
    · rw [evalDeps_fold_frame c d x x_ext hmono LI _ i k hk (List.nodup_cons.mp hnd).1]
      exact (evalDepStep_char c d x x_ext dep i (hmono i)).2 k hk
    · exact ih _ hnd.of_cons hi2

/-- C3: with a dependent-node table, `endDistributeValues` (after the forward
exchange whose outcome on the ghost array is `newExt`) sets, for each
dependent `i < ndep` and each `k < B`, `dep[B·i + k]` to
`Σ_{jp ∈ [dep_ptr[i], dep_ptr[i+1])} dep_weights[jp] · parent_value[k]`,
the parent value read from `x` when `dep_conn[jp]` is owned and from
`x_ext[B·findIndex(dep_conn[jp]) + k]` otherwise; the block is zeroed before
accumulation, so the result is independent of the prior contents of `dep`
(the right-hand side does not mention them); `x` is unchanged. -/
theorem endDistributeValues_dep_eval (c : BVecCfg) (d : DepNodes)
    (newExt : ℕ → ℚ) (s : VState)
    (hmono : ∀ i, d.dep_ptr i ≤ d.dep_ptr (i + 1)) :
    (∀ i k, i < d.ndep → k < c.bsize →
      (endDistributeValues c (some d) newExt s).x_dep (c.bsize * i + k) =
        ∑ jp ∈ Finset.Ico (d.dep_ptr i) (d.dep_ptr (i + 1)),
          d.dep_weights jp * parentVal c s.x newExt (d.dep_conn jp) k) ∧
    (endDistributeValues c (some d) newExt s).x = s.x ∧
    (endDistributeValues c (some d) newExt s).x_ext = newExt := by
  refine ⟨?_, rfl, rfl⟩
  intro i k hi hk
  exact evalDeps_fold_block c d s.x newExt hmono (List.range d.ndep) s.x_dep i k hk
    (List.nodup_range d.ndep) (List.mem_range.mpr hi)

/-- C3 (witness): `bsize = 1`, rank 0 owning `[0, 2)`, one dependent node
with parents 0 (owned, `x[0] = 2`) and 5 (ghost, exchanged value 2), weights
`1/2`: after `endDistributeValues` the dependent value is 2 regardless of its
prior content 99 (scenario S3 of the spec). -/
theorem endDistributeValues_dep_eval_witness :
    (endDistributeValues ⟨1, 0, (fun r => (2 * r : ℤ)), fun _ => 0⟩
      (some ⟨1, (fun i => 2 * i), (fun jp => if jp = 0 then 0 else 5), fun _ => 1 / 2⟩)
      (fun _ => 2) ⟨fun _ => 2, fun _ => 0, fun _ => 99⟩).x_dep (1 * 0 + 0) = 2 := by
  have h := (endDistributeValues_dep_eval ⟨1, 0, (fun r => (2 * r : ℤ)), fun _ => 0⟩
    ⟨1, (fun i => 2 * i), (fun jp => if jp = 0 then 0 else 5), fun _ => 1 / 2⟩
    (fun _ => 2) ⟨fun _ => 2, fun _ => 0, fun _ => 99⟩
    (fun i => by simp only; omega)).1 0 0 (by norm_num) (by norm_num)
  rw [h]
  norm_num [parentVal, Finset.sum_Ico_eq_sum_range, Finset.sum_range_succ,
    isOwned, ownedBase, extBase]

/-- The `TACSBVec` constructor (lines 163–218): all three value arrays are
allocated and `memset` to zero. -/
def mkBVec : VState :=
  VState.mk (fun _ => 0) (fun _ => 0) (fun _ => 0)

/-- `TACSBVec::zeroEntries` (lines 488–498): zero `x`, and also `x_ext` and
`x_dep` when present. -/
def zeroEntries (s : VState) : VState :=
  VState.mk (fun _ => 0) (fun _ => 0) (fun _ => 0)

/-- `TACSBVec::endSetValues` (lines 858–867): complete the reverse exchange —
whatever arrays `endReverse` produces (`newX` for the combined owner values,
`newExt` for the ghost buffer it used) — and then `memset` the ghost array to
zero. -/
def endSetValues (newX newExt : ℕ → ℚ) (s : VState) : VState :=
  VState.mk (VState.mk newX newExt s.x_dep).x (fun _ => 0)
    (VState.mk newX newExt s.x_dep).x_dep

/-- C6: every ghost entry is exactly 0 immediately after construction, after
`zeroEntries`, and after `endSetValues` (whatever the reverse exchange
produced); `zeroEntries` additionally zeroes all of `x` and `x_dep`. -/
theorem ghost_zero_invariant :
    (∀ j, mkBVec.x_ext j = 0) ∧
    (∀ s : VState, ∀ j, (zeroEntries s).x_ext j = 0 ∧
      (zeroEntries s).x j = 0 ∧ (zeroEntries s).x_dep j = 0) ∧
    (∀ (newX newExt : ℕ → ℚ) (s : VState) (j : ℕ),
      (endSetValues newX newExt s).x_ext j = 0) :=
  ⟨fun _ => rfl, fun _ _ => ⟨rfl, rfl, rfl⟩, fun _ _ _ _ => rfl⟩

/-- The prefix-sum `range` array computed by `MPI_Allgather` plus the scan in
`writeToFile`/`readFromFile`: `range[i]` is the sum of the first `i` local
sizes. -/
def rangeAt (sizes : List ℕ) (i : ℕ) : ℕ :=
  (sizes.take i).sum

/-- `TACSBVec::readFromFile` (lines 675–723), for a rank with local size
`size` and offset `rangeAt sizes rank`: if the file does not open, return
`fail = 1` without touching `x`.  Otherwise broadcast the header `fileLen`;
if it differs from `range[mpi_size]`, print a diagnostic and `memset` `x` to
zero — and then (unconditionally) collectively read the rank's slab from the
file into `x` and return `fail = 0`. -/
def readFromFile (opens : Bool) (fileLen : ℤ) (fileData : ℕ → ℚ)
    (sizes : List ℕ) (mpi_size rank : ℕ) (size : ℕ) (x : ℕ → ℚ) :
    (ℕ → ℚ) × ℕ :=
  if opens then
    let x1 := if fileLen ≠ (rangeAt sizes mpi_size : ℤ) then
        (fun j => if j < size then 0 else x j) else x
    let x2 := fun j => if j < size then fileData (rangeAt sizes rank + j) else x1 j
    (x2, 0)
  else (x, 1)

/-- C4 (code behaviour at the failing input): on a 1-rank run with local
size 2, a file that opens with header length 5 ≠ 2: `readFromFile` returns
0 (not nonzero) and loads the file slab into `x` (here the value 42), so the
local array is neither left zeroed nor unloaded; when the file does not open
it does return 1. This contradicts both the claim and the source's own doc
comment ("otherwise nothing is read in"). -/
theorem readFromFile_mismatch_behaviour :
    (readFromFile true 5 (fun _ => 42) [2] 1 0 2 (fun _ => 7)).2 = 0 ∧
    (readFromFile true 5 (fun _ => 42) [2] 1 0 2 (fun _ => 7)).1 0 = 42 ∧
    (readFromFile false 5 (fun _ => 42) [2] 1 0 2 (fun _ => 7)).2 = 1 := by
  refine ⟨rfl, ?_, rfl⟩
  norm_num [readFromFile, rangeAt]

/-- The abstract peer handle of the algebraic primitives: the
`dynamic_cast<TACSBVec*>` either yields a block vector (with its local size
and array) or fails. -/
inductive TACSVec where
  | bvec (size : ℕ) (x : ℕ → ℚ) : TACSVec
  | other : TACSVec

/-- `TACSBVec::dot` (lines 314–353), rank-locally: on a size mismatch print
and return 0.0 before the reduction; on a non-block-vector peer print and
return the initial sum 0.0; otherwise the BLAS dot over `[0, size)`. -/
def dot (size : ℕ) (x : ℕ → ℚ) (tvec : TACSVec) : ℚ :=
  match tvec with
  | TACSVec.bvec psize px =>
    if psize ≠ size then 0
    else ∑ i ∈ Finset.range size, x i * px i
  | TACSVec.other => 0

/-- `TACSBVec::axpy` (lines 408–425): `x ← α·peer + x` over `[0, size)`,
but return `x` unchanged on a size mismatch or a non-block-vector peer. -/
def axpy (size : ℕ) (alpha : ℚ) (x : ℕ → ℚ) (tvec : TACSVec) : ℕ → ℚ :=
  match tvec with
  | TACSVec.bvec psize px =>
    if psize ≠ size then x
    else fun i => if i < size then alpha * px i + x i else x i
  | TACSVec.other => x

/-- `TACSBVec::axpby` (lines 430–463): `x ← α·peer + β·x` over `[0, size)`,
with the same error treatment. -/
def axpby (size : ℕ) (alpha beta : ℚ) (x : ℕ → ℚ) (tvec : TACSVec) : ℕ → ℚ :=
  match tvec with
  | TACSVec.bvec psize px =>
    if psize ≠ size then x
    else fun i => if i < size then beta * x i + alpha * px i else x i
  | TACSVec.other => x

/-- `TACSBVec::copyValues` (lines 468–483): `x ← peer` over `[0, size)`,
with the same error treatment. -/
def copyValues (size : ℕ) (x : ℕ → ℚ) (tvec : TACSVec) : ℕ → ℚ :=
  match tvec with
  | TACSVec.bvec psize px =>
    if psize ≠ size then x
    else fun i => if i < size then px i else x i
  | TACSVec.other => x

/-- C8: when the peer vector has a different local size, or is not a block
vector at all, `dot`, `axpy`, `axpby` and `copyValues` leave this vector's
array unchanged (and never write the peer, which all four only read), and
the reduction `dot` returns the zero scalar. -/
theorem mismatch_no_mutation (size : ℕ) (x : ℕ → ℚ) (alpha beta : ℚ)
    (psize : ℕ) (px : ℕ → ℚ) (h : psize ≠ size) :
    dot size x (TACSVec.bvec psize px) = 0 ∧
    axpy size alpha x (TACSVec.bvec psize px) = x ∧
    axpby size alpha beta x (TACSVec.bvec psize px) = x ∧
    copyValues size x (TACSVec.bvec psize px) = x ∧
    dot size x TACSVec.other = 0 ∧
    axpy size alpha x TACSVec.other = x ∧
    axpby size alpha beta x TACSVec.other = x ∧
    copyValues size x TACSVec.other = x := by
  refine ⟨?_, ?_, ?_, ?_, rfl, rfl, rfl, rfl⟩
  · exact if_pos h
  · exact if_pos h
  · exact if_pos h
  · exact if_pos h

/-- C8 (witness): the mismatch theorem at `size = 2`, peer size 3. -/
theorem mismatch_no_mutation_witness :
    dot 2 (fun _ => 4) (TACSVec.bvec 3 (fun _ => 5)) = 0 ∧
    axpy 2 7 (fun _ => 4) (TACSVec.bvec 3 (fun _ => 5)) = (fun _ => 4) := by
  have h := mismatch_no_mutation 2 (fun _ => 4) 7 8 3 (fun _ => 5) (by norm_num)
  exact ⟨h.1, h.2.1⟩

/-- The per-rank partial of `TACSBVec::norm` (lines 273–300) in exact real
arithmetic: the squared BLAS 2-norm of the rank's local array, i.e.
`Σ x·x`. -/
def normSqLocal (xs : List ℝ) : ℝ :=
  (xs.map (fun v => v * v)).sum

/-- The per-rank partial of `TACSBVec::dot` (lines 314–353) in exact real
arithmetic: the (non-conjugated) BLAS dot of the two local arrays. -/
def dotLocal (xs ys : List ℝ) : ℝ :=
  (List.zipWith (fun a b => a * b) xs ys).sum

/-- `TACSBVec::norm` across ranks: SUM-allreduce the squared per-rank
partials, then take the square root. -/
noncomputable def norm (ranks : List (List ℝ)) : ℝ :=
  Real.sqrt ((ranks.map normSqLocal).sum)

/-- `TACSBVec::dot` across ranks: SUM-allreduce the per-rank dot partials
(matching ranks paired). -/
def dotAcrossRanks (ranks others : List (List ℝ)) : ℝ :=
  (List.zipWith dotLocal ranks others).sum

/-- Helper: zipping a list with itself multiplies each element by itself. -/
theorem zipWith_mul_self (xs : List ℝ) :
    List.zipWith (fun a b => a * b) xs xs = xs.map (fun v => v * v) := by
  induction xs with
  | nil => rfl
  | cons a xs ih => simp [List.zipWith_cons_cons, ih]

/-- Helper: zipping a list of lists with itself by `dotLocal` gives the
per-rank squared norms. -/
theorem zipWith_dotLocal_self (ranks : List (List ℝ)) :
    List.zipWith dotLocal ranks ranks = ranks.map normSqLocal := by
  induction ranks with
  | nil => rfl
  | cons xs ranks ih =>
    simp only [List.zipWith_cons_cons, List.map_cons, ih]
    rw [show dotLocal xs xs = normSqLocal xs from by
      rw [dotLocal, zipWith_mul_self xs]; rfl]

/-- C9: for every distributed vector (list of per-rank local arrays), the
square of `norm` equals `dot` of the vector with itself: both reduce the sum
over ranks of the elementwise squares of `local`, `norm` taking the square
root after the SUM reduction and `dot` omitting it (exact real
arithmetic). -/
theorem norm_sq_eq_dot (ranks : List (List ℝ)) :
    norm ranks ^ 2 = dotAcrossRanks ranks ranks := by
  rw [norm, dotAcrossRanks, zipWith_dotLocal_self]
  apply Real.sq_sqrt
  apply List.sum_nonneg
  intro v hv
  rcases List.mem_map.mp hv with ⟨xs, hxs, rfl⟩
  apply List.sum_nonneg
  intro w hw
  rcases List.mem_map.mp hw with ⟨u, hu, rfl⟩
  exact mul_self_nonneg u

/-- One pseudo-random value of `TACSBVec::setRand`:
`lower + ((upper - lower)*rand())/(1.0*RAND_MAX)`, with the successive
`rand()` outputs abstracted as a stream and `RAND_MAX` as `RM`. -/
def uniformDraw (lower upper RM v : ℚ) : ℚ :=
  lower + ((upper - lower) * v) / RM

/-- The `!var_map` branch of `TACSBVec::setRand` (lines 533–537): a single
sequential fill of `size` entries from the start of the draw stream. -/
def setRandSerial (size : ℕ) (lower upper RM : ℚ) (f : ℕ → ℚ) : List ℚ :=
  (List.range size).map (fun i => uniformDraw lower upper RM (f i))

/-- One iteration `k` of the rank loop in `TACSBVec::setRand` (lines
549–561): a rank other than ours consumes and discards
`bsize·(owner_range[k+1] − owner_range[k])` draws; our own rank fills its
`size` entries from the current stream position.  The state is
`(local array, draws consumed so far)`. -/
def setRandStep (B : ℕ) (owner_range : ℕ → ℕ) (rank size : ℕ)
    (lower upper RM : ℚ) (f : ℕ → ℚ) (st : List ℚ × ℕ) (k : ℕ) : List ℚ × ℕ :=
  if k ≠ rank then (st.1, st.2 + B * (owner_range (k + 1) - owner_range k))
  else ((List.range size).map (fun i => uniformDraw lower upper RM (f (st.2 + i))),
    st.2 + size)

/-- The `var_map` branch of `TACSBVec::setRand`: loop over all `P` ranks in
order. -/
def setRand (B : ℕ) (owner_range : ℕ → ℕ) (P rank size : ℕ)
    (lower upper RM : ℚ) (f : ℕ → ℚ) : List ℚ × ℕ :=
  (List.range P).foldl (setRandStep B owner_range rank size lower upper RM f) ([], 0)

/-- Helper: the loop invariant of `setRand`: after processing ranks
`[0, t)`, exactly `B·owner_range[t]` draws have been consumed, and the local
array is filled (from stream position `B·owner_range[rank]`) as soon as
`rank < t`. -/
theorem setRand_loop_inv (B : ℕ) (or_ : ℕ → ℕ) (rank : ℕ)
    (lower upper RM : ℚ) (f : ℕ → ℚ)
    (h0 : or_ 0 = 0) (hmono : ∀ k, or_ k ≤ or_ (k + 1)) (t : ℕ) :
    (t ≤ rank →
      (List.range t).foldl
        (setRandStep B or_ rank (B * (or_ (rank + 1) - or_ rank)) lower upper RM f)
        ([], 0) = ([], B * or_ t)) ∧
    (rank < t →
      (List.range t).foldl
        (setRandStep B or_ rank (B * (or_ (rank + 1) - or_ rank)) lower upper RM f)
        ([], 0) =
      ((List.range (B * (or_ (rank + 1) - or_ rank))).map
        (fun i => uniformDraw lower upper RM (f (B * or_ rank + i))), B * or_ t)) := by
  induction t with
  | zero =>
    refine ⟨fun _ => ?_, fun h => absurd h (Nat.not_lt_zero rank)⟩
    rw [h0, Nat.mul_zero]
    rfl
  | succ t ih =>
    have hcount : B * or_ t + B * (or_ (t + 1) - or_ t) = B * or_ (t + 1) := by
      rw [← Nat.mul_add]
      have := hmono t
      congr 1
      omega
    constructor
    · intro hle
      have hlt : t ≠ rank := by omega
      rw [List.range_succ, List.foldl_append, ih.1 (by omega)]
      show (if t ≠ rank then _ else _) = _
      rw [if_pos hlt]
      exact Prod.ext rfl hcount
    · intro hlt
      rcases Nat.lt_or_ge rank t with hr | hr
      · rw [List.range_succ, List.foldl_append, ih.2 hr]
        show (if t ≠ rank then _ else _) = _
        rw [if_pos (by omega)]
        exact Prod.ext rfl hcount
      · have hrt : rank = t := by omega
        subst hrt
        rw [List.range_succ, List.foldl_append, ih.1 (le_refl rank)]
        show (if rank ≠ rank then _ else _) = _
        rw [if_neg (by omega)]
        exact Prod.ext rfl hcount

/-- Helper: concatenating the per-rank segments of a stream, in rank order,
recovers the single prefix of the stream. -/
theorem seg_flatten (g : ℕ → ℚ) (B : ℕ) (or_ : ℕ → ℕ)
    (hmono : ∀ k, or_ k ≤ or_ (k + 1)) (h0 : or_ 0 = 0) (P : ℕ) :
    ((List.range P).map (fun r =>
      (List.range (B * (or_ (r + 1) - or_ r))).map
        (fun i => g (B * or_ r + i)))).flatten =
      (List.range (B * or_ P)).map g := by
  induction P with
  | zero => rw [h0, Nat.mul_zero]; rfl
  | succ P ih =>
    rw [List.range_succ, List.map_append, List.flatten_append, ih]
    have hcount : B * or_ (P + 1) = B * or_ P + B * (or_ (P + 1) - or_ P) := by
      rw [← Nat.mul_add]
      have := hmono P
      congr 1
      omega
    rw [hcount, List.range_add, List.map_append, List.map_map]
    simp [Function.comp]

/-- C7: with a shared draw stream `f` (the PRNG after the broadcast seed),
every rank `r < P` whose local size is `B·(owner_range[r+1] − owner_range[r])`
fills its local array with the stream segment starting at
`B·owner_range[r]`, having consumed exactly `B·owner_range[P]` draws in
total (discarding every other rank's span in rank order); consequently the
concatenation of all ranks' local arrays in rank order equals the sequence
the single-rank (`!var_map`) run of `setRand` produces from the same
stream. -/
theorem setRand_deterministic (B : ℕ) (or_ : ℕ → ℕ) (P : ℕ)
    (lower upper RM : ℚ) (f : ℕ → ℚ)
    (h0 : or_ 0 = 0) (hmono : ∀ k, or_ k ≤ or_ (k + 1)) :
    (∀ r, r < P →
      (setRand B or_ P r (B * (or_ (r + 1) - or_ r)) lower upper RM f).1 =
        (List.range (B * (or_ (r + 1) - or_ r))).map
          (fun i => uniformDraw lower upper RM (f (B * or_ r + i))) ∧
      (setRand B or_ P r (B * (or_ (r + 1) - or_ r)) lower upper RM f).2 =
        B * or_ P) ∧
    ((List.range P).map (fun r =>
      (setRand B or_ P r (B * (or_ (r + 1) - or_ r)) lower upper RM f).1)).flatten =
      setRandSerial (B * or_ P) lower upper RM f := by
  have hrank : ∀ r, r < P →
      setRand B or_ P r (B * (or_ (r + 1) - or_ r)) lower upper RM f =
      ((List.range (B * (or_ (r + 1) - or_ r))).map
        (fun i => uniformDraw lower upper RM (f (B * or_ r + i))), B * or_ P) :=
    fun r hr => (setRand_loop_inv B or_ r lower upper RM f h0 hmono P).2 hr
  constructor
  · intro r hr
    rw [hrank r hr]
    exact ⟨rfl, rfl⟩
  · rw [List.map_congr_left (fun r hr => by
      rw [hrank r (List.mem_range.mp hr)])]
    exact seg_flatten (fun i => uniformDraw lower upper RM (f i)) B or_ hmono h0 P

/-- C7 (witness): `B = 1`, `owner_range = id`, two ranks of size 1: the
concatenation of the two ranks' locals equals the serial fill of length 2. -/
theorem setRand_deterministic_witness :
    ((List.range 2).map (fun r =>
      (setRand 1 (fun k => k) 2 r (1 * ((r + 1) - r)) 0 1 1 (fun n => (n : ℚ))).1)).flatten =
      setRandSerial (1 * 2) 0 1 1 (fun n => (n : ℚ)) :=
  (setRand_deterministic 1 (fun k => k) 2 0 1 1 (fun n => (n : ℚ)) rfl
    (fun k => Nat.le_succ k)).2

end TACSBVec
